import Mathlib

/-!
Verification of the warning-fixing core of the repository (`fix_warnings.py`).

The script invokes `cargo check`, collects the diagnostic lines that contain
`warning:`, extracts the affected file paths from `--> path:line:col` markers,
and applies two in-place textual rewrite passes to each affected file:

* `fix_unused_imports` — for each selected diagnostic, extracts the symbol
  between backticks after `unused import: `, rewrites every occurrence of the
  literal statement `use <symbol>;` to `// use <symbol>;` (pattern
  `use <escaped>;`, a literal because of `re.escape`), and then applies the
  secondary regex `use ([^;]+\x7b<escaped>[^\x7d]*\x7d);` which comments out a
  brace-grouped import whose brace list starts with the symbol.
* `fix_unused_variables` — for each selected diagnostic, extracts the variable
  between backticks after `unused variable: `, and substitutes the regex
  `\b<escaped>\b` by `_<name>` across the whole file.

Texts are modelled as `List Char`.  Python's `re.sub` scans left to right and
replaces non-overlapping matches, resuming after each match; the functions
below implement exactly that scan for the three concrete patterns the script
uses.  Scanning functions that do not recurse structurally take an explicit
fuel argument; every wrapper passes the length of the scanned text, which is
always sufficient because each step consumes at least one character (proved by
the fuel-irrelevance lemmas below).  `\w` (hence `\b`) is modelled by ASCII
word characters `[a-zA-Z0-9_]`, which agrees with Python on ASCII text;
theorems quantifying over arbitrary content therefore carry an ASCII
hypothesis.
-/

/-- Texts: Python strings as lists of characters. -/
abbrev Str := List Char

/-- The backtick character (written via its code point). -/
def btick : Char := Char.ofNat 96

/-- Python's substring test `p in s`. -/
def containsB (s p : Str) : Bool :=
  match s with
  | [] => p.isEmpty
  | _ :: t => p.isPrefixOf s || containsB t p

/-- After a literal pattern prefix, match the group `[^c]+` followed by the
literal character `c` (the common shape of the three `re.search` calls in the
script: ``unused import: `([^`]+)` ``, ``unused variable: `([^`]+)` `` and
`--> ([^:]+):`).  Greedy `[^c]+` runs to the first occurrence of `c`, which
must exist and must be preceded by at least one character. -/
def quotedAfter (bad : Char) (rest : Str) : Option Str :=
  let run := rest.takeWhile (fun c => c ≠ bad)
  if run ≠ [] ∧ (rest.drop run.length).head? = some bad then some run else none

/-- `re.search` for a pattern `<pre>([^c]+)<c>`: scan left to right for the
first position where the whole pattern matches, returning the group. -/
def searchQuoted (pre : Str) (bad : Char) : Str → Option Str
  | [] => none
  | c :: t =>
    match (if pre.isPrefixOf (c :: t) then quotedAfter bad ((c :: t).drop pre.length) else none) with
    | some g => some g
    | none => searchQuoted pre bad t

/-- Fuelled scanner for `re.sub` with a literal (escaped) pattern: replace
every non-overlapping occurrence, left to right. -/
def replaceAllF (pat rep : Str) : Nat → Str → Str
  | _, [] => []
  | 0, s => s
  | fuel + 1, c :: t =>
    if pat ≠ [] ∧ pat.isPrefixOf (c :: t) then
      rep ++ replaceAllF pat rep fuel ((c :: t).drop pat.length)
    else
      c :: replaceAllF pat rep fuel t

/-- `re.sub` with a literal pattern (the `use <symbol>;` rewrite). -/
def replaceAll (pat rep s : Str) : Str := replaceAllF pat rep s.length s

/-- Match the tail `[^\x7d]*\x7d;` of the brace pattern: the greedy star runs to
the first `\x7d`, which must be followed by `;`.  Returns the group part
(up to and including the `\x7d`) and the remainder after the `;`. -/
def braceTail : Str → Option (Str × Str)
  | [] => none
  | c :: t =>
    if c = '\x7d' then
      if t.head? = some ';' then some (['\x7d'], t.tail) else none
    else (braceTail t).map (fun p => (c :: p.1, p.2))

/-- Backtracking search for the split of `([^;]+\x7b<esc>[^\x7d]*\x7d);` after
`use `: the greedy `[^;]+` tries the longest length `t` first and backs off.
On success, returns the whole group `[^;]+\x7b<esc>[^\x7d]*\x7d` and the
remainder after the closing `;`. -/
def braceFind (esc : Str) (s : Str) : Nat → Option (Str × Str)
  | 0 => none
  | t + 1 =>
    match (if ('\x7b' :: esc).isPrefixOf (s.drop (t + 1)) then
             braceTail ((s.drop (t + 1)).drop (esc.length + 1))
           else none) with
    | some p => some (s.take (t + 1) ++ '\x7b' :: esc ++ p.1, p.2)
    | none => braceFind esc s t

/-- Try to match `use ([^;]+\x7b<esc>[^\x7d]*\x7d);` at the start of `s`;
returns the group and the remainder after the match. -/
def matchBraceAt (esc s : Str) : Option (Str × Str) :=
  if "use ".data.isPrefixOf s then
    braceFind esc (s.drop 4) (((s.drop 4).takeWhile (fun c => c ≠ ';')).length)
  else none

/-- Fuelled scanner for `re.sub` with the brace pattern; the replacement is
`// use <group>;`. -/
def braceSubF (esc : Str) : Nat → Str → Str
  | _, [] => []
  | 0, s => s
  | fuel + 1, c :: t =>
    match matchBraceAt esc (c :: t) with
    | some p => "// use ".data ++ p.1 ++ ';' :: braceSubF esc fuel p.2
    | none => c :: braceSubF esc fuel t

/-- `re.sub` with the brace-grouped import pattern. -/
def braceSub (esc s : Str) : Str := braceSubF esc s.length s

/-- `re.search(r"unused import: `([^`]+)`", warning)`, returning the group. -/
def extractImportName (w : Str) : Option Str :=
  searchQuoted "unused import: `".data btick w

/-- The filter selecting the diagnostics of one file for one pass:
`[w for w in warnings if file_path in w and marker in w]`. -/
def selectWarnings (fp marker : Str) (ws : List Str) : List Str :=
  ws.filter (fun w => containsB w fp && containsB w marker)

/-- The body of the `fix_unused_imports` loop for one diagnostic: extract the
symbol (silently skipping on pattern mismatch), comment out the literal
statement, then try the brace-grouped pattern.  The first `re.sub`'s
replacement `// use <symbol>;` is modelled as a literal string; Python
parses that replacement as a template and raises `re.error` (even with zero
matches) when the extracted symbol contains a backslash escape, so this
model is faithful only for backslash-free symbols — theorems quantifying
over the symbol carry that hypothesis, and the fixed symbols of the other
claims contain no backslash. -/
def importStep (content w : Str) : Str :=
  match extractImportName w with
  | none => content
  | some name =>
    braceSub name
      (replaceAll ("use ".data ++ name ++ [';']) ("// use ".data ++ name ++ [';']) content)

/-- The content transformation performed by `fix_unused_imports` on a file's
text (the part between the read and the write-back). -/
def fixImportsContent (fp : Str) (ws : List Str) (content : Str) : Str :=
  (selectWarnings fp "unused import".data ws).foldl importStep content

/-- Python word character (`\w`) on ASCII text: `[a-zA-Z0-9_]`. -/
def isWordChar (c : Char) : Bool := c.isAlphanum || c == '_'

/-- Word-character status of an optional character (ends of the string count
as non-word). -/
def optWord : Option Char → Bool
  | none => false
  | some c => isWordChar c

/-- `\b`: a word boundary lies between two positions of opposite
word-character status. -/
def wordBoundaryB (a b : Option Char) : Bool := optWord a != optWord b

/-- Fuelled scanner for `re.sub(rf"\b\x7bre.escape(name)\x7d\b", rep, s)`:
at each position, match the literal `name` flanked by word boundaries; on a
match, emit `rep` and resume after the matched text (whose last character
becomes the previous character for the next boundary test). -/
def wordSubF (name rep : Str) : Nat → Option Char → Str → Str
  | _, _, [] => []
  | 0, _, s => s
  | fuel + 1, prev, c :: t =>
    if name ≠ [] ∧ name.isPrefixOf (c :: t) ∧ wordBoundaryB prev (some c) = true ∧
        wordBoundaryB name.getLast? (((c :: t).drop name.length).head?) = true then
      rep ++ wordSubF name rep fuel name.getLast? ((c :: t).drop name.length)
    else
      c :: wordSubF name rep fuel (some c) t

/-- `re.sub` with the word-boundary pattern, starting at the beginning of the
string (no previous character). -/
def wordSub (name rep s : Str) : Str := wordSubF name rep s.length none s

/-- `re.search(r"unused variable: `([^`]+)`", warning)`, returning the group. -/
def extractVarName (w : Str) : Option Str :=
  searchQuoted "unused variable: `".data btick w

/-- The body of the `fix_unused_variables` loop for one diagnostic: extract
the variable name (silently skipping on pattern mismatch) and prefix every
whole-word occurrence with an underscore. -/
def varStep (content w : Str) : Str :=
  match extractVarName w with
  | none => content
  | some name => wordSub name ('_' :: name) content

/-- The content transformation performed by `fix_unused_variables` on a
file's text. -/
def fixVarsContent (fp : Str) (ws : List Str) (content : Str) : Str :=
  (selectWarnings fp "unused variable".data ws).foldl varStep content

/-!  A specification-level view of the word-boundary substitution: the text
splits into maximal runs of word characters separated by single non-word
characters; `\b<name>\b` (for a non-empty all-word-character `name`) matches
exactly the maximal runs equal to `name`. -/

/-- A token of the text: a (maximal) run of word characters, or a single
non-word character. -/
inductive Tok where
  | word : Str → Tok
  | other : Char → Tok
deriving DecidableEq

/-- Fuelled tokenizer: split a text into maximal word-character runs and
single non-word characters. -/
def tokF : Nat → Str → List Tok
  | _, [] => []
  | 0, _ => []
  | fuel + 1, c :: t =>
    if isWordChar c then
      Tok.word ((c :: t).takeWhile isWordChar) :: tokF fuel ((c :: t).dropWhile isWordChar)
    else
      Tok.other c :: tokF fuel t

/-- Tokenize a text. -/
def tokenize (s : Str) : List Tok := tokF s.length s

/-- Flatten a token list back into a text. -/
def flatTok : List Tok → Str
  | [] => []
  | Tok.word r :: ts => r ++ flatTok ts
  | Tok.other c :: ts => c :: flatTok ts

/-- Rename exactly the word tokens equal to `name` into `rep`; every other
token (in particular any larger identifier merely containing `name`) is left
unchanged. -/
def renameTok (name rep : Str) : Tok → Tok
  | Tok.word r => Tok.word (if r = name then rep else r)
  | Tok.other c => Tok.other c

/-- A token list does not start with a word run (used to state maximality of
the runs produced by the tokenizer). -/
def startsOther : List Tok → Prop
  | Tok.word _ :: _ => False
  | _ => True

/-- Well-formed token lists: word runs are non-empty, all word characters,
and maximal (never followed directly by another word run); single characters
are non-word.  `tokenize` produces well-formed lists and is a left inverse
of `flatTok` on them. -/
inductive TokWF : List Tok → Prop
  | nil : TokWF []
  | other (c : Char) (ts : List Tok) : isWordChar c = false → TokWF ts →
      TokWF (Tok.other c :: ts)
  | word (r : Str) (ts : List Tok) : r ≠ [] → (∀ a ∈ r, isWordChar a = true) →
      startsOther ts → TokWF ts → TokWF (Tok.word r :: ts)

/-!  The collector, indexer and orchestration (`run_cargo_check` and `main`),
with the filesystem modelled as an association list from paths to contents
and the side effects of a run recorded as a list of file operations. -/

/-- A file operation performed by a patch pass. -/
inductive FileOp where
  | read : Str → FileOp
  | write : Str → Str → FileOp
deriving DecidableEq

/-- The filesystem: an association list from file paths to contents.  A path
exists iff it has an entry. -/
abbrev FS := List (Str × Str)

/-- `os.path.exists` + `open(..., 'r').read()`: the content of a path, if the
path exists. -/
def fsRead (fs : FS) (p : Str) : Option Str :=
  match fs with
  | [] => none
  | e :: rest => if e.1 = p then some e.2 else fsRead rest p

/-- `open(..., 'w').write(c)`: overwrite the content stored for a path. -/
def fsWrite (fs : FS) (p c : Str) : FS :=
  match fs with
  | [] => [(p, c)]
  | e :: rest => if e.1 = p then (p, c) :: rest else e :: fsWrite rest p c

/-- `fix_unused_imports(file_path, warnings)`: a no-op returning immediately
when the path does not exist; otherwise read the content, rewrite it, and
write it back.  Returns the new filesystem and the file operations
performed. -/
def fixUnusedImports (fs : FS) (fp : Str) (ws : List Str) : FS × List FileOp :=
  match fsRead fs fp with
  | none => (fs, [])
  | some content =>
    let c := fixImportsContent fp ws content
    (fsWrite fs fp c, [FileOp.read fp, FileOp.write fp c])

/-- `fix_unused_variables(file_path, warnings)`, analogously. -/
def fixUnusedVariables (fs : FS) (fp : Str) (ws : List Str) : FS × List FileOp :=
  match fsRead fs fp with
  | none => (fs, [])
  | some content =>
    let c := fixVarsContent fp ws content
    (fsWrite fs fp c, [FileOp.read fp, FileOp.write fp c])

/-- `run_cargo_check()`: the subprocess call either yields the pair
`(stdout, stderr)` or raises; the exception is caught, reported, and the
empty pair `("", "")` is returned. -/
def runCargoCheck (res : Except Str (Str × Str)) : Str × Str :=
  match res with
  | Except.ok r => r
  | Except.error _ => ([], [])

/-- Python's `str.split('\n')` (always non-empty; keeps empty fragments). -/
def splitLines : Str → List Str
  | [] => [[]]
  | c :: t =>
    if c = '\n' then [] :: splitLines t
    else
      match splitLines t with
      | h :: r => (c :: h) :: r
      | [] => [[c]]

/-- Python whitespace for `str.strip()` (ASCII). -/
def isPySpace (c : Char) : Bool :=
  c == ' ' || c == '\t' || c == '\n' || c == '\r' || c == '\x0b' || c == '\x0c'

/-- Python's `str.strip()`. -/
def pyStrip (s : Str) : Str :=
  ((s.dropWhile isPySpace).reverse.dropWhile isPySpace).reverse

/-- The warning lines derived by `main` from the checker output:
`[line.strip() for line in all_output.split('\n') if 'warning:' in line]`. -/
def mainWarnings (allOutput : Str) : List Str :=
  (splitLines allOutput).filterMap
    (fun l => if containsB l "warning:".data then some (pyStrip l) else none)

/-- The contribution of one warning line to the set of files to fix:
`re.search(r'--> ([^:]+):', warning)` is attempted only when the line
contains `-->`. -/
def pathOfLine (w : Str) : Option Str :=
  if containsB w "-->".data then searchQuoted "--> ".data ':' w else none

/-- Accumulate the path contributed by one warning line (if any) into the
set of files to fix. -/
def addPath (acc : List Str) (w : Str) : List Str :=
  match pathOfLine w with
  | some p => if p ∈ acc then acc else acc ++ [p]
  | none => acc

/-- The set of files to fix, as a list without duplicates (Python builds a
`set`; only membership matters to the claims). -/
def filesToFix (warnings : List Str) : List Str :=
  warnings.foldl addPath []

/-- The top-level run (`main`) up to its reporting: collect the checker
output (or the caught failure), derive the warning lines and the files to
fix, and run both patch passes on each file.  Returns the warning lines, the
files to fix, the final filesystem and the file operations performed.  The
final informational re-run of the checker only prints counts and performs no
file operations, so it is not modelled. -/
def mainRun (res : Except Str (Str × Str)) (fs : FS) :
    List Str × List Str × FS × List FileOp :=
  let so := runCargoCheck res
  let warnings := mainWarnings (so.1 ++ so.2)
  let files := filesToFix warnings
  let fin := files.foldl
    (fun (st : FS × List FileOp) fp =>
      let ri := fixUnusedImports st.1 fp warnings
      let rv := fixUnusedVariables ri.1 fp warnings
      (rv.1, st.2 ++ ri.2 ++ rv.2))
    (fs, [])
  (warnings, files, fin.1, fin.2)

example :
    fixImportsContent "main.rs".data
      ["warning: unused import: `foo::Bar` --> main.rs:1:1".data]
      "use foo::Bar;".data = "// use foo::Bar;".data := by decide

example :
    fixVarsContent "main.rs".data
      ["warning: unused variable: `count` --> main.rs:2:9".data]
      "let count = 1; discounted + count".data
      = "let _count = 1; discounted + _count".data := by decide

example :
    fixVarsContent "main.rs".data
      ["warning: unused variable: `count` --> main.rs:2:9".data]
      "let _count = 1; discounted + _count".data
      = "let _count = 1; discounted + _count".data := by decide

example :
    flatTok ((tokenize "let count = 1; discounted + count".data).map
      (renameTok "count".data "_count".data))
      = "let _count = 1; discounted + _count".data := by decide

example : pathOfLine "  --> src/main.rs:3:5".data = some "src/main.rs".data := by decide

example : mainRun (Except.error "cargo not found".data) [] = ([], [], [], []) := rfl

/-! ### Basic lemmas about the scanning primitives -/

theorem prefixOf_iff (p : Str) : ∀ s : Str, p.isPrefixOf s = true ↔ ∃ t, p ++ t = s := by
  induction p with
  | nil => intro s; simp [List.isPrefixOf]
  | cons a p ih =>
    intro s
    cases s with
    | nil => simp [List.isPrefixOf]
    | cons b t =>
      simp only [List.isPrefixOf, Bool.and_eq_true, beq_iff_eq, ih, List.cons_append,
        List.cons.injEq]
      constructor
      · rintro ⟨rfl, u, rfl⟩; exact ⟨u, rfl, rfl⟩
      · rintro ⟨u, rfl, rfl⟩; exact ⟨rfl, u, rfl⟩

theorem prefixOf_append (p t : Str) : p.isPrefixOf (p ++ t) = true :=
  (prefixOf_iff p (p ++ t)).mpr ⟨t, rfl⟩

theorem containsB_iff (s p : Str) : containsB s p = true ↔ ∃ a b, s = a ++ p ++ b := by
  induction s with
  | nil =>
    simp only [containsB, List.isEmpty_iff]
    constructor
    · rintro rfl; exact ⟨[], [], rfl⟩
    · rintro ⟨a, b, h⟩
      rcases a with _ | ⟨a0, a'⟩
      · rcases p with _ | ⟨p0, p'⟩
        · rfl
        · simp at h
      · simp at h
  | cons c t ih =>
    simp only [containsB, Bool.or_eq_true, prefixOf_iff, ih]
    constructor
    · rintro (⟨u, hu⟩ | ⟨a, b, rfl⟩)
      · exact ⟨[], u, by rw [List.nil_append, ← hu]⟩
      · exact ⟨c :: a, b, rfl⟩
    · rintro ⟨a, b, h⟩
      rcases a with _ | ⟨a0, a'⟩
      · left; exact ⟨b, by simpa using h.symm⟩
      · right
        simp only [List.cons_append, List.cons.injEq] at h
        exact ⟨a', b, h.2⟩

theorem containsB_cons_of_tail (c : Char) (t p : Str) (h : containsB t p = true) :
    containsB (c :: t) p = true := by
  simp [containsB, h]

theorem replaceAllF_mem (pat rep : Str) :
    ∀ (fuel : Nat) (s : Str) (c : Char), c ∈ replaceAllF pat rep fuel s → c ∈ rep ∨ c ∈ s := by
  intro fuel
  induction fuel with
  | zero =>
    intro s c h
    cases s with
    | nil => simp [replaceAllF] at h
    | cons a t => exact Or.inr (by simpa [replaceAllF] using h)
  | succ fuel ih =>
    intro s c h
    cases s with
    | nil => simp [replaceAllF] at h
    | cons a t =>
      by_cases hp : pat ≠ [] ∧ pat.isPrefixOf (a :: t) = true
      · rw [replaceAllF, if_pos hp] at h
        rcases List.mem_append.mp h with h1 | h1
        · exact Or.inl h1
        · rcases ih _ _ h1 with h2 | h2
          · exact Or.inl h2
          · exact Or.inr (List.drop_subset _ _ h2)
      · rw [replaceAllF, if_neg hp] at h
        rcases List.mem_cons.mp h with rfl | h1
        · exact Or.inr (List.mem_cons_self _ _)
        · rcases ih _ _ h1 with h2 | h2
          · exact Or.inl h2
          · exact Or.inr (List.mem_cons_of_mem _ h2)

theorem replaceAllF_of_not_contains (pat rep : Str) :
    ∀ (fuel : Nat) (s : Str), containsB s pat = false → replaceAllF pat rep fuel s = s := by
  intro fuel
  induction fuel with
  | zero => intro s _; cases s <;> rfl
  | succ fuel ih =>
    intro s hs
    cases s with
    | nil => rfl
    | cons a t =>
      simp only [containsB, Bool.or_eq_false_iff] at hs
      rw [replaceAllF, if_neg (by simp [hs.1]), ih t hs.2]

theorem braceTail_length : ∀ s g r : Str, braceTail s = some (g, r) → r.length < s.length := by
  intro s
  induction s with
  | nil => intro g r h; simp [braceTail] at h
  | cons c t ih =>
    intro g r h
    by_cases hc : c = '\x7d'
    · rw [braceTail, if_pos hc] at h
      by_cases hh : t.head? = some ';'
      · rw [if_pos hh] at h
        simp only [Option.some.injEq, Prod.mk.injEq] at h
        rw [← h.2]
        have : t.tail.length ≤ t.length := by
          cases t <;> simp
        simp only [List.length_cons]
        omega
      · rw [if_neg hh] at h; simp at h
    · rw [braceTail, if_neg hc] at h
      cases hb : braceTail t with
      | none => rw [hb] at h; simp at h
      | some p =>
        rw [hb] at h
        simp only [Option.map_some', Option.some.injEq, Prod.mk.injEq] at h
        have := ih p.1 p.2 (by rw [hb])
        rw [← h.2]
        simp only [List.length_cons]
        omega

theorem braceTail_lbrace_free (rest post : Str) (h : '\x7d' ∉ rest) :
    braceTail (rest ++ '\x7d' :: ';' :: post) = some (rest ++ ['\x7d'], post) := by
  induction rest with
  | nil => rfl
  | cons c t ih =>
    have hc : c ≠ '\x7d' := fun hc => h (hc ▸ List.mem_cons_self _ _)
    rw [List.cons_append, braceTail, if_neg hc,
      ih (fun hm => h (List.mem_cons_of_mem _ hm))]
    rfl

theorem braceFind_length (esc s : Str) :
    ∀ (t : Nat) (g r : Str), braceFind esc s t = some (g, r) → r.length < s.length := by
  intro t
  induction t with
  | zero => intro g r h; simp [braceFind] at h
  | succ t ih =>
    intro g r h
    rw [braceFind] at h
    by_cases hp : ('\x7b' :: esc).isPrefixOf (s.drop (t + 1)) = true
    · rw [if_pos hp] at h
      cases hb : braceTail ((s.drop (t + 1)).drop (esc.length + 1)) with
      | none => rw [hb] at h; exact ih g r h
      | some p =>
        rw [hb] at h
        simp only [Option.some.injEq, Prod.mk.injEq] at h
        have h1 := braceTail_length _ p.1 p.2 hb
        have h2 : ((s.drop (t + 1)).drop (esc.length + 1)).length ≤ s.length := by
          simp only [List.length_drop]
          omega
        rw [← h.2]
        omega
    · rw [if_neg hp] at h
      exact ih g r h

theorem braceFind_lbrace (esc s : Str) :
    ∀ (t : Nat) (p : Str × Str), braceFind esc s t = some p → '\x7b' ∈ s := by
  intro t
  induction t with
  | zero => intro p h; simp [braceFind] at h
  | succ t ih =>
    intro p h
    rw [braceFind] at h
    by_cases hp : ('\x7b' :: esc).isPrefixOf (s.drop (t + 1)) = true
    · rcases (prefixOf_iff _ _).mp hp with ⟨u, hu⟩
      have hm : '\x7b' ∈ s.drop (t + 1) := by
        rw [← hu]; exact List.mem_append_left _ (List.mem_cons_self _ _)
      exact List.drop_subset _ _ hm
    · rw [if_neg hp] at h
      exact ih p h

theorem matchBraceAt_length (esc s : Str) (g r : Str)
    (h : matchBraceAt esc s = some (g, r)) : r.length < s.length := by
  rw [matchBraceAt] at h
  by_cases hp : "use ".data.isPrefixOf s = true
  · rw [if_pos hp] at h
    have h1 := braceFind_length esc (s.drop 4) _ g r h
    have h2 : (s.drop 4).length ≤ s.length := by
      simp only [List.length_drop]; omega
    omega
  · rw [if_neg hp] at h; simp at h

theorem matchBraceAt_none (esc s : Str) (h : '\x7b' ∉ s) : matchBraceAt esc s = none := by
  rw [matchBraceAt]
  by_cases hp : "use ".data.isPrefixOf s = true
  · rw [if_pos hp]
    cases hb : braceFind esc (s.drop 4) (((s.drop 4).takeWhile (fun c => c ≠ ';')).length) with
    | none => rfl
    | some p => exact absurd (List.drop_subset _ _ (braceFind_lbrace _ _ _ p hb)) h
  · rw [if_neg hp]

theorem braceSubF_no_lbrace (esc : Str) :
    ∀ (fuel : Nat) (s : Str), '\x7b' ∉ s → braceSubF esc fuel s = s := by
  intro fuel
  induction fuel with
  | zero => intro s _; cases s <;> rfl
  | succ fuel ih =>
    intro s hs
    cases s with
    | nil => rfl
    | cons c t =>
      rw [braceSubF, matchBraceAt_none esc _ hs,
        ih t (fun hm => hs (List.mem_cons_of_mem _ hm))]

theorem braceSub_no_lbrace (esc s : Str) (h : '\x7b' ∉ s) : braceSub esc s = s :=
  braceSubF_no_lbrace esc s.length s h

theorem prefixOf_head (x : Char) (xs l : Str) (h : (x :: xs).isPrefixOf l = true) :
    l.head? = some x := by
  rcases (prefixOf_iff _ _).mp h with ⟨t, ht⟩
  rw [← ht]; rfl

theorem getElem?_mem_str (l : Str) (n : Nat) (a : Char) (h : l[n]? = some a) : a ∈ l := by
  rw [List.getElem?_eq_some] at h
  obtain ⟨hn, rfl⟩ := h
  exact List.getElem_mem hn

theorem takeWhile_append_all (p : Char → Bool) (A : Str) :
    ∀ B : Str, (∀ a ∈ A, p a = true) → (A ++ B).takeWhile p = A ++ B.takeWhile p := by
  induction A with
  | nil => intro B _; simp
  | cons a A ih =>
    intro B h
    rw [List.cons_append, List.takeWhile_cons_of_pos (h a (List.mem_cons_self _ _)),
      ih B (fun x hx => h x (List.mem_cons_of_mem _ hx))]
    rfl

/-- The greedy `[^;]+` in the brace pattern succeeds with the largest
backtracking length for which the rest of the pattern matches: if the pattern
continues successfully at position `t₀` and at no larger position up to the
starting length `T`, the backtracking search settles on `t₀`. -/
theorem braceFind_succeeds (esc s : Str) (t₀ : Nat) (g r : Str)
    (ht : 1 ≤ t₀)
    (hp : ('\x7b' :: esc).isPrefixOf (s.drop t₀) = true)
    (hb : braceTail ((s.drop t₀).drop (esc.length + 1)) = some (g, r)) :
    ∀ T : Nat, t₀ ≤ T →
      (∀ u : Nat, t₀ < u → u ≤ T → ('\x7b' :: esc).isPrefixOf (s.drop u) = false) →
      braceFind esc s T = some (s.take t₀ ++ '\x7b' :: esc ++ g, r) := by
  intro T
  induction T with
  | zero => intro h0 _; omega
  | succ T ih =>
    intro hT hno
    by_cases he : t₀ = T + 1
    · subst he
      rw [braceFind, if_pos hp, hb]
    · have hlt : t₀ ≤ T := by omega
      have hu := hno (T + 1) (by omega) (Nat.le_refl _)
      rw [braceFind, hu]
      simp only [Bool.false_eq_true, if_false]
      exact ih hlt (fun u h1 h2 => hno u h1 (by omega))

theorem braceSubF_fuel (esc : Str) :
    ∀ (f₁ : Nat), ∀ (f₂ : Nat) (s : Str), s.length ≤ f₁ → s.length ≤ f₂ →
      braceSubF esc f₁ s = braceSubF esc f₂ s := by
  intro f₁
  induction f₁ with
  | zero =>
    intro f₂ s h1 _
    have : s = [] := List.length_eq_zero.mp (Nat.le_zero.mp h1)
    subst this; cases f₂ <;> rfl
  | succ f₁ ih =>
    intro f₂ s h1 h2
    cases s with
    | nil => cases f₂ <;> rfl
    | cons c t =>
      cases f₂ with
      | zero => simp [List.length_cons] at h2
      | succ f₂ =>
        cases hm : matchBraceAt esc (c :: t) with
        | some p =>
          have hl := matchBraceAt_length esc (c :: t) p.1 p.2 (by rw [hm])
          simp only [List.length_cons] at h1 h2 hl
          simp only [braceSubF, hm]
          rw [ih f₂ p.2 (by omega) (by omega)]
        | none =>
          simp only [List.length_cons] at h1 h2
          simp only [braceSubF, hm]
          rw [ih f₂ t (by omega) (by omega)]

example :
    fixImportsContent "main.rs".data
      ["warning main.rs unused import: `Y`".data]
      "use a::\x7bY, X\x7d;".data = "// use a::\x7bY, X\x7d;".data := by decide

example :
    fixImportsContent "main.rs".data
      ["warning main.rs unused import: `X`".data]
      "use a::\x7bY, X\x7d;".data = "use a::\x7bY, X\x7d;".data := by decide

example :
    fixImportsContent "main.rs".data
      ["warning: unused import: `foo::Bar` --> main.rs:1:1".data]
      "// use foo::Bar;".data = "// // use foo::Bar;".data := by decide

/-! ### Diagnostic selection and the per-diagnostic steps -/

theorem selectWarnings_mem (fp marker : Str) (ws : List Str) (w : Str) :
    w ∈ selectWarnings fp marker ws ↔
      w ∈ ws ∧ containsB w fp = true ∧ containsB w marker = true := by
  simp [selectWarnings, List.mem_filter, Bool.and_eq_true]

theorem selectWarnings_single (fp marker w : Str) (h1 : containsB w fp = true)
    (h2 : containsB w marker = true) : selectWarnings fp marker [w] = [w] := by
  simp [selectWarnings, h1, h2]

theorem fixImportsContent_single (fp w content : Str) (h1 : containsB w fp = true)
    (h2 : containsB w "unused import".data = true) :
    fixImportsContent fp [w] content = importStep content w := by
  rw [fixImportsContent, selectWarnings_single _ _ _ h1 h2]
  rfl

theorem fixVarsContent_single (fp w content : Str) (h1 : containsB w fp = true)
    (h2 : containsB w "unused variable".data = true) :
    fixVarsContent fp [w] content = varStep content w := by
  rw [fixVarsContent, selectWarnings_single _ _ _ h1 h2]
  rfl

theorem selectWarnings_append (fp marker : Str) (ws1 ws2 : List Str) :
    selectWarnings fp marker (ws1 ++ ws2) =
      selectWarnings fp marker ws1 ++ selectWarnings fp marker ws2 :=
  List.filter_append ws1 ws2

/-- Claim C5: a warning line is selected for a patch pass of a file iff it
contains the file path as a substring and the pass's category marker as a
substring ("unused import" for the import pass, "unused variable" for the
variable pass). -/
theorem c5_selection_iff (ws : List Str) (fp w : Str) :
    (w ∈ selectWarnings fp "unused import".data ws ↔
      w ∈ ws ∧ (∃ a b, w = a ++ fp ++ b) ∧
        (∃ a b, w = a ++ "unused import".data ++ b)) ∧
    (w ∈ selectWarnings fp "unused variable".data ws ↔
      w ∈ ws ∧ (∃ a b, w = a ++ fp ++ b) ∧
        (∃ a b, w = a ++ "unused variable".data ++ b)) := by
  constructor
  · rw [selectWarnings_mem, containsB_iff, containsB_iff]
  · rw [selectWarnings_mem, containsB_iff, containsB_iff]

/-- A diagnostic whose unused-import extraction pattern fails to match makes
the import pass's per-diagnostic step a no-op: removing the line from the
warnings list leaves the pass's result unchanged, whether or not the line
passes the file-and-category filter (if it does, its step is the identity;
if not, it is not selected at all). -/
theorem importStep_extract_none (fp w : Str) (ws1 ws2 : List Str) (ci : Str)
    (hei : extractImportName w = none) :
    fixImportsContent fp (ws1 ++ w :: ws2) ci = fixImportsContent fp (ws1 ++ ws2) ci := by
  rw [fixImportsContent, fixImportsContent, selectWarnings_append, selectWarnings_append]
  by_cases hsel : (containsB w fp && containsB w "unused import".data) = true
  · have hw : selectWarnings fp "unused import".data (w :: ws2) =
        w :: selectWarnings fp "unused import".data ws2 := by
      simp [selectWarnings, hsel]
    rw [hw, List.foldl_append, List.foldl_append]
    have hstep : ∀ x : Str, importStep x w = x := by
      intro x; simp [importStep, hei]
    simp only [List.foldl_cons, hstep]
  · have hw : selectWarnings fp "unused import".data (w :: ws2) =
        selectWarnings fp "unused import".data ws2 := by
      simp only [selectWarnings, List.filter_cons]
      rw [if_neg hsel]
    rw [hw]

/-- The analogue for the variable pass: a failed unused-variable extraction
makes the per-diagnostic step a no-op. -/
theorem varStep_extract_none (fp w : Str) (ws1 ws2 : List Str) (cv : Str)
    (hev : extractVarName w = none) :
    fixVarsContent fp (ws1 ++ w :: ws2) cv = fixVarsContent fp (ws1 ++ ws2) cv := by
  rw [fixVarsContent, fixVarsContent, selectWarnings_append, selectWarnings_append]
  by_cases hsel : (containsB w fp && containsB w "unused variable".data) = true
  · have hw : selectWarnings fp "unused variable".data (w :: ws2) =
        w :: selectWarnings fp "unused variable".data ws2 := by
      simp [selectWarnings, hsel]
    rw [hw, List.foldl_append, List.foldl_append]
    have hstep : ∀ x : Str, varStep x w = x := by
      intro x; simp [varStep, hev]
    simp only [List.foldl_cons, hstep]
  · have hw : selectWarnings fp "unused variable".data (w :: ws2) =
        selectWarnings fp "unused variable".data ws2 := by
      simp only [selectWarnings, List.filter_cons]
      rw [if_neg hsel]
    rw [hw]

/-- Claim C9, per pass: a diagnostic line that passes the import pass's
file-and-category filter but has no backtick-quoted symbol after
`unused import: ` causes no change to the file content, and the remaining
diagnostics are still processed; likewise, a line that passes the variable
pass's filter but has no quoted symbol after `unused variable: ` causes no
change in that pass.  (Both passes are total functions, so no exception can
arise.) -/
theorem c9_malformed_diagnostic_skipped (fp w : Str) (ws1 ws2 : List Str) (ci cv : Str) :
    (containsB w fp = true → containsB w "unused import".data = true →
      extractImportName w = none →
      fixImportsContent fp (ws1 ++ w :: ws2) ci = fixImportsContent fp (ws1 ++ ws2) ci) ∧
    (containsB w fp = true → containsB w "unused variable".data = true →
      extractVarName w = none →
      fixVarsContent fp (ws1 ++ w :: ws2) cv = fixVarsContent fp (ws1 ++ ws2) cv) :=
  ⟨fun _ _ hei => importStep_extract_none fp w ws1 ws2 ci hei,
   fun _ _ hev => varStep_extract_none fp w ws1 ws2 cv hev⟩

theorem c9_witness :
    (containsB "a.rs warning: unused import: no symbol".data "a.rs".data = true ∧
     containsB "a.rs warning: unused import: no symbol".data
       "unused import".data = true ∧
     extractImportName "a.rs warning: unused import: no symbol".data = none ∧
     fixImportsContent "a.rs".data
        ["w1 a.rs unused import: `q`".data,
         "a.rs warning: unused import: no symbol".data]
        "use q; use r;".data
      = fixImportsContent "a.rs".data ["w1 a.rs unused import: `q`".data]
          "use q; use r;".data) ∧
    (containsB "a.rs warning: unused variable: no symbol".data "a.rs".data = true ∧
     containsB "a.rs warning: unused variable: no symbol".data
       "unused variable".data = true ∧
     extractVarName "a.rs warning: unused variable: no symbol".data = none ∧
     fixVarsContent "a.rs".data
        ["w2 a.rs unused variable: `n`".data,
         "a.rs warning: unused variable: no symbol".data]
        "let n = 1;".data
      = fixVarsContent "a.rs".data ["w2 a.rs unused variable: `n`".data]
          "let n = 1;".data) :=
  ⟨⟨by decide, by decide, by decide,
    (c9_malformed_diagnostic_skipped "a.rs".data
        "a.rs warning: unused import: no symbol".data
        ["w1 a.rs unused import: `q`".data] [] "use q; use r;".data []).1
      (by decide) (by decide) (by decide)⟩,
   ⟨by decide, by decide, by decide,
    (c9_malformed_diagnostic_skipped "a.rs".data
        "a.rs warning: unused variable: no symbol".data
        ["w2 a.rs unused variable: `n`".data] [] [] "let n = 1;".data).2
      (by decide) (by decide) (by decide)⟩⟩

/-- Claim C10: the unused-import pass is not idempotent.  On the file
`use foo::Bar;` with a diagnostic for `foo::Bar`, one application yields
`// use foo::Bar;`, and a second application on the already-patched content
matches the statement inside the commented-out line again, producing
`// // use foo::Bar;`. -/
theorem c10_import_pass_not_idempotent :
    fixImportsContent "main.rs".data
      ["warning: unused import: `foo::Bar` --> main.rs:1:1".data]
      "use foo::Bar;".data = "// use foo::Bar;".data ∧
    fixImportsContent "main.rs".data
      ["warning: unused import: `foo::Bar` --> main.rs:1:1".data]
      "// use foo::Bar;".data = "// // use foo::Bar;".data ∧
    fixImportsContent "main.rs".data
      ["warning: unused import: `foo::Bar` --> main.rs:1:1".data]
      "// use foo::Bar;".data ≠ "// use foo::Bar;".data := by
  refine ⟨by decide, by decide, by decide⟩

/-- Claim C1 counterexample: with the single diagnostic reporting the unused
symbol `foo::Bar`, a file that also contains the brace-grouped import
`use a::\x7bfoo::Bar\x7d;` is changed beyond the literal statement
`use foo::Bar;`: the secondary brace pattern comments out the second
statement as well, so content other than the literal statement does not stay
unchanged. -/
theorem c1_counterexample :
    fixImportsContent "main.rs".data
      ["warning: unused import: `foo::Bar` --> main.rs:1:1".data]
      "use foo::Bar;\nuse a::\x7bfoo::Bar\x7d;\n".data
      = "// use foo::Bar;\n// use a::\x7bfoo::Bar\x7d;\n".data ∧
    "// use foo::Bar;\n// use a::\x7bfoo::Bar\x7d;\n".data
      ≠ replaceAll "use foo::Bar;".data "// use foo::Bar;".data
          "use foo::Bar;\nuse a::\x7bfoo::Bar\x7d;\n".data :=
  ⟨by decide, by decide⟩

/-- Claim C1 (amended): for a file whose content contains `use foo::Bar;`
and no `\x7b` character (so the secondary brace pattern cannot match), and a
single selected diagnostic whose extracted symbol is `foo::Bar`, the
unused-import pass replaces every occurrence of the literal statement
`use foo::Bar;` by `// use foo::Bar;` and leaves all other content
unchanged (which is exactly the literal left-to-right replacement
`replaceAll`). -/
theorem c1_import_literal_rewrite (content fp w : Str)
    (_hocc : containsB content "use foo::Bar;".data = true)
    (hnb : '\x7b' ∉ content)
    (hfp : containsB w fp = true)
    (hmk : containsB w "unused import".data = true)
    (hex : extractImportName w = some "foo::Bar".data) :
    fixImportsContent fp [w] content =
      replaceAll "use foo::Bar;".data "// use foo::Bar;".data content := by
  rw [fixImportsContent_single fp w content hfp hmk]
  simp only [importStep, hex]
  have hpat : ("use ".data ++ "foo::Bar".data ++ [';'] : Str) = "use foo::Bar;".data := by
    decide
  have hrep : ("// use ".data ++ "foo::Bar".data ++ [';'] : Str) =
      "// use foo::Bar;".data := by decide
  rw [hpat, hrep]
  apply braceSub_no_lbrace
  intro hmem
  rcases replaceAllF_mem _ _ _ _ _ hmem with h | h
  · revert h; decide
  · exact hnb h

theorem c1_witness :
    (containsB "use foo::Bar;\nfn main();\n".data "use foo::Bar;".data = true ∧
     '\x7b' ∉ "use foo::Bar;\nfn main();\n".data ∧
     containsB "warning: unused import: `foo::Bar` --> main.rs:1:1".data
       "main.rs".data = true ∧
     containsB "warning: unused import: `foo::Bar` --> main.rs:1:1".data
       "unused import".data = true ∧
     extractImportName "warning: unused import: `foo::Bar` --> main.rs:1:1".data
       = some "foo::Bar".data) ∧
    fixImportsContent "main.rs".data
      ["warning: unused import: `foo::Bar` --> main.rs:1:1".data]
      "use foo::Bar;\nfn main();\n".data
      = replaceAll "use foo::Bar;".data "// use foo::Bar;".data
          "use foo::Bar;\nfn main();\n".data :=
  ⟨by decide,
   c1_import_literal_rewrite "use foo::Bar;\nfn main();\n".data "main.rs".data
     "warning: unused import: `foo::Bar` --> main.rs:1:1".data
     (by decide) (by decide) (by decide) (by decide) (by decide)⟩

/-- Claim C2 counterexample: the brace pattern requires the reported symbol
to stand immediately after the opening brace.  For the file
`use a::\x7bX, Y\x7d;` and a diagnostic reporting `Y` (which the brace list
contains, but not in first position), the pass leaves the content completely
unchanged instead of commenting the statement out. -/
theorem c2_counterexample :
    extractImportName "warning main.rs unused import: `Y`".data = some "Y".data ∧
    containsB "use a::\x7bX, Y\x7d;".data "Y".data = true ∧
    fixImportsContent "main.rs".data ["warning main.rs unused import: `Y`".data]
      "use a::\x7bX, Y\x7d;".data = "use a::\x7bX, Y\x7d;".data :=
  ⟨by decide, by decide, by decide⟩
/-- Whole-word prefixes restrict to the left part of an append when they fit
inside it. -/
theorem prefixOf_append_left : ∀ (p A B : Str), p.isPrefixOf (A ++ B) = true →
    p.length ≤ A.length → p.isPrefixOf A = true := by
  intro p
  induction p with
  | nil =>
    intro A B _ _
    cases A with
    | nil => rfl
    | cons a A' => rfl
  | cons x p' ih =>
    intro A B h hl
    cases A with
    | nil => simp at hl
    | cons a A' =>
      rw [List.cons_append] at h
      simp only [List.isPrefixOf, Bool.and_eq_true] at h ⊢
      refine ⟨h.1, ih A' B h.2 ?_⟩
      simp only [List.length_cons] at hl
      omega

theorem containsB_of_drop (l p : Str) (i : Nat) (h : p.isPrefixOf (l.drop i) = true) :
    containsB l p = true := by
  obtain ⟨u, hu⟩ := (prefixOf_iff _ _).mp h
  refine (containsB_iff _ _).mpr ⟨l.take i, u, ?_⟩
  conv_lhs => rw [← List.take_append_drop i l, ← hu]
  simp [List.append_assoc]

/-- If no occurrence of `use ` begins inside `pre` (the windows that start in
`pre` only reach three characters into the following text, which itself
starts with `use `), then no position inside `pre` starts a `use ` prefix of
`pre ++ rest`. -/
theorem no_use_in_leading (pre rest : Str) (hr : ∃ r', rest = "use ".data ++ r')
    (hpre : containsB (pre ++ "use".data) "use ".data = false) :
    ∀ i, i < pre.length → "use ".data.isPrefixOf ((pre ++ rest).drop i) = false := by
  intro i hi
  cases hp2 : "use ".data.isPrefixOf ((pre ++ rest).drop i) with
  | false => rfl
  | true =>
    exfalso
    obtain ⟨r', rfl⟩ := hr
    rw [List.drop_append_of_le_length (by omega)] at hp2
    have hsplit : ("use ".data ++ r' : Str) = "use".data ++ (' ' :: r') := rfl
    have hshape : (pre.drop i ++ ("use ".data ++ r') : Str)
        = (pre.drop i ++ "use".data) ++ (' ' :: r') := by
      rw [hsplit, List.append_assoc]
    rw [hshape] at hp2
    have h4 : ("use ".data : Str).length = 4 := rfl
    have h3 : ("use".data : Str).length = 3 := rfl
    have hlen4 : ("use ".data : Str).length ≤ (pre.drop i ++ "use".data).length := by
      simp only [List.length_append, List.length_drop, h4, h3]
      omega
    have hp3 := prefixOf_append_left _ _ _ hp2 hlen4
    have hp4 : "use ".data.isPrefixOf ((pre ++ "use".data).drop i) = true := by
      rw [List.drop_append_of_le_length (by omega)]
      exact hp3
    have hc := containsB_of_drop _ _ _ hp4
    rw [hpre] at hc
    exact Bool.noConfusion hc

/-- The brace scanner copies verbatim any leading text in which no position
starts a `use ` prefix: every match attempt there fails at the literal
`use `, so the scan advances one character at a time until the leading text
is exhausted. -/
theorem braceSubF_skip (esc : Str) :
    ∀ (pre : Str) (fuel : Nat) (rest : Str),
      (∀ i, i < pre.length → "use ".data.isPrefixOf ((pre ++ rest).drop i) = false) →
      pre.length + rest.length ≤ fuel →
      braceSubF esc fuel (pre ++ rest) = pre ++ braceSubF esc (fuel - pre.length) rest := by
  intro pre
  induction pre with
  | nil =>
    intro fuel rest _ _
    simp
  | cons p₀ pre' ih =>
    intro fuel rest hno hf
    cases fuel with
    | zero => simp only [List.length_cons] at hf; omega
    | succ fuel =>
      have h0 : "use ".data.isPrefixOf (p₀ :: (pre' ++ rest)) = false := by
        have h00 := hno 0 (by simp)
        simpa using h00
      have hmb : matchBraceAt esc (p₀ :: (pre' ++ rest)) = none := by
        rw [matchBraceAt, if_neg (by simp [h0])]
      have hno' : ∀ i, i < pre'.length →
          "use ".data.isPrefixOf ((pre' ++ rest).drop i) = false := by
        intro i hi
        have hni := hno (i + 1) (by simp only [List.length_cons]; omega)
        simpa [List.drop_succ_cons] using hni
      rw [List.cons_append]
      simp only [braceSubF, hmb]
      rw [ih fuel rest hno' (by simp only [List.length_cons] at hf; omega)]
      simp [List.length_cons, Nat.succ_sub_succ]

/-- The brace pattern applied to a statement `use <seg>\x7b<name><rest>\x7d;`
whose brace list starts with `name`: the whole statement is rewritten as
commented out and the scan continues on the trailing content. -/
theorem braceSub_first_in_list (seg name rest post : Str)
    (hseg : seg ≠ [])
    (hsegc : ∀ c ∈ seg, c ≠ ';' ∧ c ≠ '\x7b')
    (hnamec : ∀ c ∈ name, c ≠ ';' ∧ c ≠ '\x7b' ∧ c ≠ '\x7d')
    (hrestc : ∀ c ∈ rest, c ≠ ';' ∧ c ≠ '\x7b' ∧ c ≠ '\x7d') :
    braceSub name
        ("use ".data ++ (seg ++ ('\x7b' :: (name ++ (rest ++ ('\x7d' :: ';' :: post))))))
      = "// use ".data ++
          (seg ++ ('\x7b' :: (name ++ (rest ++ ('\x7d' :: ';' :: braceSub name post))))) := by
  -- the match of the brace pattern at the start of the statement
  have hmb : matchBraceAt name
      ('u' :: 's' :: 'e' :: ' ' ::
        (seg ++ ('\x7b' :: (name ++ (rest ++ ('\x7d' :: ';' :: post))))))
      = some ((seg ++ ('\x7b' :: (name ++ (rest ++ ('\x7d' :: ';' :: post))))).take seg.length
                ++ '\x7b' :: name ++ (rest ++ ['\x7d']), post) := by
    have hpre : "use ".data.isPrefixOf
        ('u' :: 's' :: 'e' :: ' ' ::
          (seg ++ ('\x7b' :: (name ++ (rest ++ ('\x7d' :: ';' :: post)))))) = true :=
      prefixOf_append "use ".data _
    rw [matchBraceAt, if_pos hpre]
    have hdrop4 : (('u' :: 's' :: 'e' :: ' ' ::
        (seg ++ ('\x7b' :: (name ++ (rest ++ ('\x7d' :: ';' :: post))))) : Str)).drop 4
        = seg ++ ('\x7b' :: (name ++ (rest ++ ('\x7d' :: ';' :: post)))) := rfl
    rw [hdrop4]
    have hs4A : (seg ++ ('\x7b' :: (name ++ (rest ++ ('\x7d' :: ';' :: post)))) : Str)
        = (seg ++ ('\x7b' :: (name ++ (rest ++ ['\x7d'])))) ++ ';' :: post := by
      simp [List.append_assoc]
    have hA : (seg ++ ('\x7b' :: (name ++ (rest ++ ('\x7d' :: ';' :: post)))) : Str).takeWhile
        (fun c => c ≠ ';')
        = seg ++ ('\x7b' :: (name ++ (rest ++ ['\x7d']))) := by
      rw [hs4A, takeWhile_append_all]
      · rw [List.takeWhile_cons_of_neg (by decide), List.append_nil]
      · intro a ha
        simp only [List.mem_append, List.mem_cons, List.not_mem_nil, or_false] at ha
        simp only [decide_eq_true_eq]
        rcases ha with ha | ha | ha | ha | ha
        · exact (hsegc a ha).1
        · subst ha; decide
        · exact (hnamec a ha).1
        · exact (hrestc a ha).1
        · subst ha; decide
    rw [hA]
    have hAlen : (seg ++ ('\x7b' :: (name ++ (rest ++ ['\x7d'])))).length
        = seg.length + name.length + rest.length + 2 := by
      simp only [List.length_append, List.length_cons, List.length_nil]
      omega
    rw [hAlen]
    have ht : 1 ≤ seg.length := List.length_pos.mpr hseg
    have hdseg : (seg ++ ('\x7b' :: (name ++ (rest ++ ('\x7d' :: ';' :: post)))) : Str).drop
        seg.length = '\x7b' :: (name ++ (rest ++ ('\x7d' :: ';' :: post))) :=
      List.drop_left seg _
    have hp : ('\x7b' :: name).isPrefixOf
        ((seg ++ ('\x7b' :: (name ++ (rest ++ ('\x7d' :: ';' :: post)))) : Str).drop
          seg.length) = true := by
      rw [hdseg]
      exact prefixOf_append ('\x7b' :: name) _
    have hb : braceTail
        (((seg ++ ('\x7b' :: (name ++ (rest ++ ('\x7d' :: ';' :: post)))) : Str).drop
            seg.length).drop (name.length + 1))
        = some (rest ++ ['\x7d'], post) := by
      rw [hdseg]
      have hd : (('\x7b' :: (name ++ (rest ++ ('\x7d' :: ';' :: post))) : Str)).drop
          (name.length + 1) = rest ++ ('\x7d' :: ';' :: post) := by
        rw [List.drop_succ_cons]
        exact List.drop_left name _
      rw [hd]
      exact braceTail_lbrace_free rest post (fun hm => (hrestc _ hm).2.2 rfl)
    refine braceFind_succeeds name _ seg.length (rest ++ ['\x7d']) post ht hp hb
      (seg.length + name.length + rest.length + 2) (by omega) ?_
    intro u h1 h2
    cases hp2 : ('\x7b' :: name).isPrefixOf
        ((seg ++ ('\x7b' :: (name ++ (rest ++ ('\x7d' :: ';' :: post)))) : Str).drop u) with
    | false => rfl
    | true =>
      exfalso
      have hhd := prefixOf_head _ _ _ hp2
      rw [List.head?_drop, List.getElem?_append, if_neg (by omega)] at hhd
      obtain ⟨j, hj⟩ : ∃ j, u - seg.length = j + 1 := ⟨u - seg.length - 1, by omega⟩
      rw [hj, List.getElem?_cons_succ] at hhd
      have hM : (name ++ (rest ++ ('\x7d' :: ';' :: post)) : Str)
          = (name ++ (rest ++ ['\x7d', ';'])) ++ post := by
        simp [List.append_assoc]
      rw [hM, List.getElem?_append,
        if_pos (by simp only [List.length_append, List.length_cons, List.length_nil]; omega)]
        at hhd
      have hmem := getElem?_mem_str _ _ _ hhd
      simp only [List.mem_append, List.mem_cons, List.not_mem_nil, or_false] at hmem
      rcases hmem with hm | hm | hm | hm
      · exact (hnamec _ hm).2.1 rfl
      · exact (hrestc _ hm).2.1 rfl
      · exact absurd hm (by decide)
      · exact absurd hm (by decide)
  -- unfold one step of the brace scanner at the start of the content
  have hcontent : ("use ".data ++
      (seg ++ ('\x7b' :: (name ++ (rest ++ ('\x7d' :: ';' :: post))))) : Str)
      = 'u' :: 's' :: 'e' :: ' ' ::
          (seg ++ ('\x7b' :: (name ++ (rest ++ ('\x7d' :: ';' :: post))))) := rfl
  have hlen : (('u' :: 's' :: 'e' :: ' ' ::
      (seg ++ ('\x7b' :: (name ++ (rest ++ ('\x7d' :: ';' :: post))))) : Str)).length
      = ((seg ++ ('\x7b' :: (name ++ (rest ++ ('\x7d' :: ';' :: post)))) : Str).length + 3)
          + 1 := by
    simp only [List.length_cons]
  rw [braceSub, hcontent, hlen]
  simp only [braceSubF, hmb]
  have hfuel : braceSubF name
      ((seg ++ ('\x7b' :: (name ++ (rest ++ ('\x7d' :: ';' :: post)))) : Str).length + 3) post
      = braceSub name post := by
    rw [braceSub]
    refine braceSubF_fuel name _ _ post ?_ (Nat.le_refl _)
    simp only [List.length_append, List.length_cons]
    omega
  rw [hfuel]
  simp [List.take_left, List.append_assoc]


/-- Claim C2 (amended): the brace-grouped rewrite fires exactly when the
reported symbol appears immediately after the opening brace (first position
in the brace list); a symbol elsewhere in the list is not matched (see the
counterexample).  For a file whose content contains the statement
`use <seg>\x7b<name><rest>\x7d;` anywhere — preceded by leading content in
which no occurrence of `use ` begins and followed by arbitrary trailing
content — provided additionally that the file contains no plain statement
`use <name>;` (the primary literal rewrite would fire on it first) and that
the symbol contains no backslash (Python raises `re.error` on the primary
rewrite's replacement template for names with invalid escapes, before any
write, a failure mode outside this embedding), the pass rewrites the whole
brace-grouped statement as commented out and continues scanning the trailing
content. -/
theorem c2_brace_import_first_position (fp w pre seg name rest post : Str)
    (hpre : containsB (pre ++ "use".data) "use ".data = false)
    (hseg : seg ≠ [])
    (hsegc : ∀ c ∈ seg, c ≠ ';' ∧ c ≠ '\x7b')
    (_hbs : '\\' ∉ name)
    (hnamec : ∀ c ∈ name, c ≠ ';' ∧ c ≠ '\x7b' ∧ c ≠ '\x7d')
    (hrestc : ∀ c ∈ rest, c ≠ ';' ∧ c ≠ '\x7b' ∧ c ≠ '\x7d')
    (hfp : containsB w fp = true)
    (hmk : containsB w "unused import".data = true)
    (hex : extractImportName w = some name)
    (hnl : containsB
        (pre ++
          ("use ".data ++ (seg ++ ('\x7b' :: (name ++ (rest ++ ('\x7d' :: ';' :: post)))))))
        ("use ".data ++ name ++ [';']) = false) :
    fixImportsContent fp [w]
        (pre ++
          ("use ".data ++ (seg ++ ('\x7b' :: (name ++ (rest ++ ('\x7d' :: ';' :: post)))))))
      = pre ++ ("// use ".data ++
          (seg ++ ('\x7b' :: (name ++ (rest ++ ('\x7d' :: ';' :: braceSub name post)))))) := by
  rw [fixImportsContent_single fp w _ hfp hmk]
  simp only [importStep, hex]
  rw [replaceAll, replaceAllF_of_not_contains _ _ _ _ hnl]
  rw [braceSub]
  rw [braceSubF_skip name pre _ _
    (no_use_in_leading pre _ ⟨_, rfl⟩ hpre)
    (Nat.le_of_eq (List.length_append _ _).symm)]
  have harith : (pre ++
      ("use ".data ++
        (seg ++ ('\x7b' :: (name ++ (rest ++ ('\x7d' :: ';' :: post))))))).length - pre.length
      = (("use ".data ++
          (seg ++ ('\x7b' :: (name ++ (rest ++ ('\x7d' :: ';' :: post)))))) : Str).length := by
    simp only [List.length_append]
    omega
  rw [harith]
  have hb := braceSub_first_in_list seg name rest post hseg hsegc hnamec hrestc
  rw [braceSub] at hb
  rw [hb]

theorem c2_witness :
    (containsB ("fn f();\n".data ++ "use".data) "use ".data = false ∧
     "a::".data ≠ ([] : Str) ∧
     (∀ c ∈ "a::".data, c ≠ ';' ∧ c ≠ '\x7b') ∧
     '\\' ∉ "Y".data ∧
     (∀ c ∈ "Y".data, c ≠ ';' ∧ c ≠ '\x7b' ∧ c ≠ '\x7d') ∧
     (∀ c ∈ ", X".data, c ≠ ';' ∧ c ≠ '\x7b' ∧ c ≠ '\x7d') ∧
     containsB "warning main.rs unused import: `Y`".data "main.rs".data = true ∧
     containsB "warning main.rs unused import: `Y`".data "unused import".data = true ∧
     extractImportName "warning main.rs unused import: `Y`".data = some "Y".data ∧
     containsB
       ("fn f();\n".data ++
         ("use ".data ++
           ("a::".data ++ ('\x7b' :: ("Y".data ++ (", X".data ++ ('\x7d' :: ';' :: [])))))))
       ("use ".data ++ "Y".data ++ [';']) = false) ∧
    fixImportsContent "main.rs".data ["warning main.rs unused import: `Y`".data]
        ("fn f();\n".data ++
          ("use ".data ++
            ("a::".data ++ ('\x7b' :: ("Y".data ++ (", X".data ++ ('\x7d' :: ';' :: [])))))))
      = "fn f();\n".data ++ ("// use ".data ++
          ("a::".data ++
            ('\x7b' :: ("Y".data ++ (", X".data ++
              ('\x7d' :: ';' :: braceSub "Y".data [])))))) :=
  ⟨⟨by decide, by decide, by decide, by decide, by decide, by decide, by decide, by decide,
    by decide, by decide⟩,
   c2_brace_import_first_position "main.rs".data
     "warning main.rs unused import: `Y`".data "fn f();\n".data "a::".data "Y".data
     ", X".data []
     (by decide) (by decide) (by decide) (by decide) (by decide) (by decide) (by decide)
     (by decide) (by decide) (by decide)⟩

/-! ### The collector, the indexer and the orchestration -/

/-- Claim C6: if spawning the external checker raises any exception, the
collector returns the empty output pair, and the top-level run (a total
function, so it cannot raise) derives zero warning lines, an empty set of
files to fix, and performs no file reads or writes (the filesystem is
returned unchanged and the operation log is empty). -/
theorem c6_checker_failure_noop (e : Str) (fs : FS) :
    runCargoCheck (Except.error e) = ([], []) ∧
    mainRun (Except.error e) fs = ([], [], fs, []) :=
  ⟨rfl, rfl⟩

theorem drop_takeWhile_length (p : Char → Bool) :
    ∀ l : Str, l.drop (l.takeWhile p).length = l.dropWhile p := by
  intro l
  induction l with
  | nil => rfl
  | cons c t ih =>
    by_cases hc : p c = true
    · rw [List.takeWhile_cons_of_pos hc, List.dropWhile_cons_of_pos hc, List.length_cons,
        List.drop_succ_cons, ih]
    · rw [List.takeWhile_cons_of_neg (by simpa using hc),
        List.dropWhile_cons_of_neg (by simpa using hc)]
      rfl

theorem quotedAfter_sound (bad : Char) (rest g : Str) (h : quotedAfter bad rest = some g) :
    g ≠ [] ∧ bad ∉ g ∧ ∃ r, rest = g ++ bad :: r := by
  simp only [quotedAfter] at h
  split_ifs at h with hc
  · simp only [Option.some.injEq] at h
    subst h
    refine ⟨hc.1, ?_, ?_⟩
    · intro hm
      have := List.mem_takeWhile_imp hm
      simp only [decide_eq_true_eq] at this
      exact this rfl
    · have hd := hc.2
      rw [drop_takeWhile_length] at hd
      cases hdw : rest.dropWhile (fun c => c ≠ bad) with
      | nil => rw [hdw] at hd; simp at hd
      | cons d ds =>
        rw [hdw] at hd
        simp only [List.head?_cons, Option.some.injEq] at hd
        have hsplit := List.takeWhile_append_dropWhile (fun c => c ≠ bad) rest
        rw [hdw, hd] at hsplit
        exact ⟨ds, hsplit.symm⟩

theorem searchQuoted_sound (pre : Str) (bad : Char) :
    ∀ (s g : Str), searchQuoted pre bad s = some g →
      g ≠ [] ∧ bad ∉ g ∧ containsB s (pre ++ g ++ [bad]) = true := by
  intro s
  induction s with
  | nil => intro g h; simp [searchQuoted] at h
  | cons c t ih =>
    intro g h
    rw [searchQuoted] at h
    by_cases hp : pre.isPrefixOf (c :: t) = true
    · rw [if_pos hp] at h
      cases hq : quotedAfter bad ((c :: t).drop pre.length) with
      | some g' =>
        simp only [hq, Option.some.injEq] at h
        subst h
        obtain ⟨hne, hnb, r, hr⟩ := quotedAfter_sound _ _ _ hq
        rcases (prefixOf_iff _ _).mp hp with ⟨u, hu⟩
        have hdrop : (c :: t).drop pre.length = u := by
          rw [← hu]; exact List.drop_left pre u
        rw [hdrop] at hr
        refine ⟨hne, hnb, (containsB_iff _ _).mpr ⟨[], r, ?_⟩⟩
        rw [← hu, hr]
        simp [List.append_assoc]
      | none =>
        simp only [hq] at h
        obtain ⟨hne, hnb, hc⟩ := ih g h
        exact ⟨hne, hnb, containsB_cons_of_tail _ _ _ hc⟩
    · rw [if_neg hp] at h
      obtain ⟨hne, hnb, hc⟩ := ih g h
      exact ⟨hne, hnb, containsB_cons_of_tail _ _ _ hc⟩

theorem pathOfLine_sound (w q : Str) (h : pathOfLine w = some q) :
    containsB w "-->".data = true ∧ ':' ∉ q ∧
      containsB w ("--> ".data ++ q ++ [':']) = true := by
  rw [pathOfLine] at h
  by_cases hm : containsB w "-->".data = true
  · rw [if_pos hm] at h
    obtain ⟨_, hnb, hc⟩ := searchQuoted_sound _ _ _ _ h
    exact ⟨hm, hnb, hc⟩
  · rw [if_neg hm] at h; simp at h

theorem addPath_mem (acc : List Str) (w q : Str) (h : q ∈ addPath acc w) :
    q ∈ acc ∨ pathOfLine w = some q := by
  cases hp : pathOfLine w with
  | none => simp only [addPath, hp] at h; exact Or.inl h
  | some p =>
    simp only [addPath, hp] at h
    by_cases hin : p ∈ acc
    · rw [if_pos hin] at h; exact Or.inl h
    · rw [if_neg hin] at h
      rcases List.mem_append.mp h with h1 | h1
      · exact Or.inl h1
      · simp only [List.mem_singleton] at h1
        subst h1
        exact Or.inr rfl

theorem foldl_addPath_mem :
    ∀ (ws : List Str) (acc : List Str) (q : Str), q ∈ ws.foldl addPath acc →
      q ∈ acc ∨ ∃ w, w ∈ ws ∧ pathOfLine w = some q := by
  intro ws
  induction ws with
  | nil => intro acc q h; exact Or.inl h
  | cons w ws ih =>
    intro acc q h
    rw [List.foldl_cons] at h
    rcases ih (addPath acc w) q h with h1 | ⟨w', hw', hp'⟩
    · rcases addPath_mem acc w q h1 with h2 | h2
      · exact Or.inl h2
      · exact Or.inr ⟨w, List.mem_cons_self _ _, h2⟩
    · exact Or.inr ⟨w', List.mem_cons_of_mem _ hw', hp'⟩

/-- Claim C7: a warning line contributes a path to the set of files to fix
only if it contains the location marker `-->` followed by a colon-terminated
path (the line contains `--> <path>:` as a substring, with a colon-free
path); a line lacking the marker contributes nothing (every path in the set
comes from a line containing `-->`). -/
theorem c7_path_requires_location_marker (ws : List Str) (q : Str)
    (h : q ∈ filesToFix ws) :
    ∃ w, w ∈ ws ∧ containsB w "-->".data = true ∧ pathOfLine w = some q ∧
      ':' ∉ q ∧ containsB w ("--> ".data ++ q ++ [':']) = true := by
  rcases foldl_addPath_mem ws [] q h with h1 | ⟨w, hw, hp⟩
  · simp at h1
  · obtain ⟨hm, hnc, hc⟩ := pathOfLine_sound w q hp
    exact ⟨w, hw, hm, hp, hnc, hc⟩

theorem c7_witness :
    "src/main.rs".data ∈ filesToFix ["cc --> src/main.rs:3:5 warning: x".data] ∧
    (∃ w, w ∈ ["cc --> src/main.rs:3:5 warning: x".data] ∧
      containsB w "-->".data = true ∧ pathOfLine w = some "src/main.rs".data ∧
      ':' ∉ "src/main.rs".data ∧
      containsB w ("--> ".data ++ "src/main.rs".data ++ [':']) = true) :=
  ⟨by decide,
   c7_path_requires_location_marker ["cc --> src/main.rs:3:5 warning: x".data]
     "src/main.rs".data (by decide)⟩

/-- Claim C8: for a path with no entry in the filesystem (the
`os.path.exists` check fails), both patch passes return immediately: the
filesystem is unchanged and no read or write is performed.  Both passes are
total functions, so no exception can arise. -/
theorem c8_missing_file_noop (fs : FS) (fp : Str) (ws : List Str)
    (h : fsRead fs fp = none) :
    fixUnusedImports fs fp ws = (fs, []) ∧ fixUnusedVariables fs fp ws = (fs, []) := by
  constructor
  · rw [fixUnusedImports, h]
  · rw [fixUnusedVariables, h]

theorem c8_witness :
    fsRead [("lib.rs".data, "use a;".data)] "main.rs".data = none ∧
    fixUnusedImports [("lib.rs".data, "use a;".data)] "main.rs".data
        ["warning: unused import: `a` --> main.rs:1:1".data]
      = ([("lib.rs".data, "use a;".data)], []) ∧
    fixUnusedVariables [("lib.rs".data, "use a;".data)] "main.rs".data
        ["warning: unused import: `a` --> main.rs:1:1".data]
      = ([("lib.rs".data, "use a;".data)], []) :=
  ⟨by decide,
   (c8_missing_file_noop [("lib.rs".data, "use a;".data)] "main.rs".data
     ["warning: unused import: `a` --> main.rs:1:1".data] (by decide)).1,
   (c8_missing_file_noop [("lib.rs".data, "use a;".data)] "main.rs".data
     ["warning: unused import: `a` --> main.rs:1:1".data] (by decide)).2⟩

/-! ### The word-boundary substitution: scanning equals tokenwise renaming -/

theorem dropWhile_length_le (p : Char → Bool) : ∀ l : Str, (l.dropWhile p).length ≤ l.length := by
  intro l
  induction l with
  | nil => exact Nat.le_refl _
  | cons c t ih =>
    by_cases hc : p c = true
    · rw [List.dropWhile_cons_of_pos hc]
      exact Nat.le_trans ih (by simp)
    · rw [List.dropWhile_cons_of_neg (by simpa using hc)]

theorem head?_eq_zero (l : Str) : l.head? = l[0]? := by
  cases l with
  | nil => rfl
  | cons a t => simp

theorem optWord_dropWhile (l : Str) : optWord (l.dropWhile isWordChar).head? = false := by
  induction l with
  | nil => rfl
  | cons c t ih =>
    by_cases hc : isWordChar c = true
    · rw [List.dropWhile_cons_of_pos hc]; exact ih
    · rw [List.dropWhile_cons_of_neg (by simpa using hc)]
      simpa [optWord] using hc

theorem optWord_getLast (l : Str) (hn : l ≠ []) (hw : ∀ c ∈ l, isWordChar c = true) :
    optWord l.getLast? = true := by
  rw [List.getLast?_eq_getLast_of_ne_nil hn]
  exact hw _ (List.getLast_mem hn)

theorem prefix_head_false (n₀ : Char) (nr : Str) (c : Char) (t : Str)
    (hw0 : isWordChar n₀ = true) (hwc : isWordChar c = false) :
    (n₀ :: nr).isPrefixOf (c :: t) = false := by
  have hbe : (n₀ == c) = false := by
    rw [beq_eq_false_iff_ne]
    intro hh
    subst hh
    rw [hw0] at hwc
    exact Bool.noConfusion hwc
  simp [List.isPrefixOf, hbe]

theorem wordSubF_fuel (name rep : Str) :
    ∀ f₁ f₂ : Nat, ∀ (prev : Option Char) (s : Str), s.length ≤ f₁ → s.length ≤ f₂ →
      wordSubF name rep f₁ prev s = wordSubF name rep f₂ prev s := by
  intro f₁
  induction f₁ with
  | zero =>
    intro f₂ prev s h1 _
    have hs : s = [] := List.length_eq_zero.mp (Nat.le_zero.mp h1)
    subst hs; cases f₂ <;> rfl
  | succ f₁ ih =>
    intro f₂ prev s h1 h2
    cases s with
    | nil => cases f₂ <;> rfl
    | cons c t =>
      cases f₂ with
      | zero => simp at h2
      | succ f₂ =>
        simp only [List.length_cons] at h1 h2
        by_cases hc : name ≠ [] ∧ name.isPrefixOf (c :: t) = true ∧
            wordBoundaryB prev (some c) = true ∧
            wordBoundaryB name.getLast? (((c :: t).drop name.length).head?) = true
        · rw [wordSubF, wordSubF, if_pos hc, if_pos hc]
          have hnl : 1 ≤ name.length := List.length_pos.mpr hc.1
          have hlen : ((c :: t).drop name.length).length ≤ t.length := by
            simp only [List.length_drop, List.length_cons]
            omega
          rw [ih f₂ _ _ (by omega) (by omega)]
        · rw [wordSubF, wordSubF, if_neg hc, if_neg hc]
          rw [ih f₂ _ _ (by omega) (by omega)]

theorem wordSubF_shift (name rep : Str) (hn : name ≠ [])
    (hwn : ∀ c ∈ name, isWordChar c = true) (fuel : Nat) (prev₁ prev₂ : Option Char)
    (s : Str) (hok : optWord s.head? = false) :
    wordSubF name rep fuel prev₁ s = wordSubF name rep fuel prev₂ s := by
  cases s with
  | nil => cases fuel <;> rfl
  | cons c t =>
    cases fuel with
    | zero => rfl
    | succ fuel =>
      have hwc : isWordChar c = false := by simpa [optWord] using hok
      have hpre : name.isPrefixOf (c :: t) = false := by
        cases hnm : name with
        | nil => exact absurd hnm hn
        | cons n₀ nr =>
          exact prefix_head_false n₀ nr c t (hwn n₀ (hnm ▸ List.mem_cons_self _ _)) hwc
      rw [wordSubF, wordSubF,
        if_neg (fun h => by have hx := h.2.1; rw [hpre] at hx; exact Bool.noConfusion hx),
        if_neg (fun h => by have hx := h.2.1; rw [hpre] at hx; exact Bool.noConfusion hx)]

theorem wordSubF_inrun (name rep : Str) (hn : name ≠ [])
    (hwn : ∀ c ∈ name, isWordChar c = true) :
    ∀ (run : Str) (fuel : Nat) (pc : Char) (s' : Str),
      isWordChar pc = true → (∀ a ∈ run, isWordChar a = true) →
      optWord s'.head? = false → run.length + s'.length ≤ fuel →
      wordSubF name rep fuel (some pc) (run ++ s')
        = run ++ wordSubF name rep s'.length none s' := by
  intro run
  induction run with
  | nil =>
    intro fuel pc s' _ _ hok hf
    rw [List.nil_append, List.nil_append,
      wordSubF_shift name rep hn hwn fuel (some pc) none s' hok]
    exact wordSubF_fuel name rep fuel s'.length none s' (by simpa using hf) (Nat.le_refl _)
  | cons a run' ih =>
    intro fuel pc s' hpc hrun hok hf
    cases fuel with
    | zero => simp only [List.length_cons] at hf; omega
    | succ fuel =>
      have hwa : isWordChar a = true := hrun a (List.mem_cons_self _ _)
      have hbb : wordBoundaryB (some pc) (some a) = false := by
        simp [wordBoundaryB, optWord, hpc, hwa]
      rw [List.cons_append, wordSubF,
        if_neg (fun h => by have hx := h.2.2.1; rw [hbb] at hx; exact Bool.noConfusion hx),
        ih fuel a s' hwa (fun x hx => hrun x (List.mem_cons_of_mem _ hx)) hok
          (by simp only [List.length_cons] at hf; omega)]
      rfl

/-- A whole-word match of an all-word-character `name` at the start of
`run ++ s'` (with `run` all word characters and `s'` starting non-word)
together with a word boundary right after the match forces `name` to be the
whole run. -/
theorem run_eq_name_of (name run s' : Str)
    (hwn : ∀ c ∈ name, isWordChar c = true) (hwr : ∀ c ∈ run, isWordChar c = true)
    (hok : optWord s'.head? = false)
    (hpre : name.isPrefixOf (run ++ s') = true)
    (hba : optWord ((run ++ s').drop name.length).head? = false) : name = run := by
  rcases (prefixOf_iff _ _).mp hpre with ⟨u, hu⟩
  rcases Nat.lt_trichotomy name.length run.length with hlt | heq | hgt
  · exfalso
    rw [List.head?_drop, List.getElem?_append, if_pos hlt,
      List.getElem?_eq_getElem hlt] at hba
    simp only [optWord] at hba
    rw [hwr _ (List.getElem_mem hlt)] at hba
    exact Bool.noConfusion hba
  · exact (List.append_inj hu heq).1
  · exfalso
    have h0 : (run ++ s')[run.length]? = s'[0]? := by
      rw [List.getElem?_append, if_neg (by omega)]
      simp
    have h1 : (name ++ u)[run.length]? = name[run.length]? := by
      rw [List.getElem?_append, if_pos hgt]
    rw [hu, h0, List.getElem?_eq_getElem hgt] at h1
    rw [← head?_eq_zero] at h1
    rw [h1] at hok
    simp only [optWord] at hok
    rw [hwn _ (List.getElem_mem hgt)] at hok
    exact Bool.noConfusion hok

theorem tokF_fuel : ∀ f₁ f₂ : Nat, ∀ s : Str, s.length ≤ f₁ → s.length ≤ f₂ →
    tokF f₁ s = tokF f₂ s := by
  intro f₁
  induction f₁ with
  | zero =>
    intro f₂ s h1 _
    have hs : s = [] := List.length_eq_zero.mp (Nat.le_zero.mp h1)
    subst hs; cases f₂ <;> rfl
  | succ f₁ ih =>
    intro f₂ s h1 h2
    cases s with
    | nil => cases f₂ <;> rfl
    | cons c t =>
      cases f₂ with
      | zero => simp at h2
      | succ f₂ =>
        simp only [List.length_cons] at h1 h2
        by_cases hc : isWordChar c = true
        · rw [tokF, tokF, if_pos hc, if_pos hc, List.dropWhile_cons_of_pos hc,
            ih f₂ _ (Nat.le_trans (dropWhile_length_le _ t) (by omega))
              (Nat.le_trans (dropWhile_length_le _ t) (by omega))]
        · rw [tokF, tokF, if_neg hc, if_neg hc, ih f₂ _ (by omega) (by omega)]

theorem tokenize_cons_word (c : Char) (t : Str) (hc : isWordChar c = true) :
    tokenize (c :: t) = Tok.word ((c :: t).takeWhile isWordChar) ::
      tokenize ((c :: t).dropWhile isWordChar) := by
  rw [tokenize, tokenize]
  simp only [List.length_cons]
  rw [tokF, if_pos hc, List.dropWhile_cons_of_pos hc]
  rw [tokF_fuel t.length (t.dropWhile isWordChar).length (t.dropWhile isWordChar)
    (dropWhile_length_le _ t) (Nat.le_refl _)]

theorem tokenize_cons_nonword (c : Char) (t : Str) (hc : ¬ isWordChar c = true) :
    tokenize (c :: t) = Tok.other c :: tokenize t := by
  rw [tokenize, tokenize]
  simp only [List.length_cons]
  rw [tokF, if_neg hc]

/-- The scan of `re.sub(r"\b<name>\b", rep, s)` (for a non-empty all-word
`name`) acts tokenwise: it replaces exactly the maximal word-character runs
equal to `name` and copies everything else. -/
theorem wordSubF_tokens (name rep : Str) (hn : name ≠ [])
    (hwn : ∀ c ∈ name, isWordChar c = true) :
    ∀ (fuel : Nat) (s : Str) (prev : Option Char), s.length ≤ fuel →
      optWord prev = false →
      wordSubF name rep fuel prev s
        = flatTok ((tokenize s).map (renameTok name rep)) := by
  intro fuel
  induction fuel with
  | zero =>
    intro s prev h1 _
    have hs : s = [] := List.length_eq_zero.mp (Nat.le_zero.mp h1)
    subst hs; rfl
  | succ fuel ih =>
    intro s prev h1 hprev
    cases s with
    | nil => rfl
    | cons c t =>
      simp only [List.length_cons] at h1
      by_cases hw : isWordChar c = true
      · -- a maximal word run starts here
        have hrun_cons : (c :: t).takeWhile isWordChar = c :: t.takeWhile isWordChar :=
          List.takeWhile_cons_of_pos hw
        have hs'_eq : (c :: t).dropWhile isWordChar = t.dropWhile isWordChar :=
          List.dropWhile_cons_of_pos hw
        have hok : optWord ((c :: t).dropWhile isWordChar).head? = false := by
          rw [hs'_eq]; exact optWord_dropWhile t
        have hrun_words : ∀ a ∈ (c :: t).takeWhile isWordChar, isWordChar a = true :=
          fun a ha => List.mem_takeWhile_imp ha
        have hsrun : (c :: t).takeWhile isWordChar ++ (c :: t).dropWhile isWordChar
            = c :: t := List.takeWhile_append_dropWhile _ _
        have hlens' : ((c :: t).dropWhile isWordChar).length ≤ t.length := by
          rw [hs'_eq]; exact dropWhile_length_le _ t
        have htok : tokenize (c :: t)
            = Tok.word ((c :: t).takeWhile isWordChar) ::
                tokenize ((c :: t).dropWhile isWordChar) := tokenize_cons_word c t hw
        rw [htok]
        simp only [List.map_cons, renameTok, flatTok]
        by_cases he : (c :: t).takeWhile isWordChar = name
        · -- the run is exactly the reported name: the pattern matches here
          have hpre : name.isPrefixOf (c :: t) = true := by
            rw [← hsrun, he]
            exact prefixOf_append name _
          have hoc : optWord (some c) = true := by simp [optWord, hw]
          have hbb : wordBoundaryB prev (some c) = true := by
            rw [wordBoundaryB, hprev, hoc]
            decide
          have hdropn : (c :: t).drop name.length = (c :: t).dropWhile isWordChar := by
            conv_lhs => rw [← hsrun, he]
            exact List.drop_left name _
          have hba : wordBoundaryB name.getLast?
              (((c :: t).drop name.length).head?) = true := by
            rw [hdropn, wordBoundaryB, optWord_getLast name hn hwn, hok]
            rfl
          rw [wordSubF, if_pos ⟨hn, hpre, hbb, hba⟩, hdropn, if_pos he,
            wordSubF_shift name rep hn hwn fuel name.getLast? none _ hok,
            ih _ none (by omega) rfl]
        · -- the run differs from the name: no match anywhere inside the run
          have hcond : ¬ (name ≠ [] ∧ name.isPrefixOf (c :: t) = true ∧
              wordBoundaryB prev (some c) = true ∧
              wordBoundaryB name.getLast? (((c :: t).drop name.length).head?) = true) := by
            rintro ⟨-, hpre, -, hba⟩
            refine he ?_
            refine (run_eq_name_of name ((c :: t).takeWhile isWordChar)
              ((c :: t).dropWhile isWordChar) hwn hrun_words hok ?_ ?_).symm
            · rw [hsrun]; exact hpre
            · rw [hsrun]
              rw [wordBoundaryB, optWord_getLast name hn hwn] at hba
              cases hx : optWord (((c :: t).drop name.length).head?) with
              | false => rfl
              | true => rw [hx] at hba; exact Bool.noConfusion hba
          have htw : t.takeWhile isWordChar ++ t.dropWhile isWordChar = t :=
            List.takeWhile_append_dropWhile _ _
          have hlensum : (t.takeWhile isWordChar).length + (t.dropWhile isWordChar).length
              = t.length := by
            rw [← List.length_append, htw]
          have hl2 : (t.dropWhile isWordChar).length ≤ t.length := dropWhile_length_le _ t
          have hin := wordSubF_inrun name rep hn hwn (t.takeWhile isWordChar) fuel c
            (t.dropWhile isWordChar) hw (fun a ha => List.mem_takeWhile_imp ha)
            (optWord_dropWhile t) (by omega)
          rw [htw] at hin
          rw [wordSubF, if_neg hcond, if_neg he, hin, hrun_cons, hs'_eq, List.cons_append,
            wordSubF_fuel name rep (t.dropWhile isWordChar).length fuel none _
              (Nat.le_refl _) (by omega),
            ih _ none (by omega) rfl]
      · -- a non-word character: copied verbatim, no match can start here
        have hw' : isWordChar c = false := by simpa using hw
        have hcond : ¬ (name ≠ [] ∧ name.isPrefixOf (c :: t) = true ∧
            wordBoundaryB prev (some c) = true ∧
            wordBoundaryB name.getLast? (((c :: t).drop name.length).head?) = true) := by
          rintro ⟨-, hpre, -, -⟩
          cases hnm : name with
          | nil => exact hn hnm
          | cons n₀ nr =>
            rw [hnm, prefix_head_false n₀ nr c t (hwn n₀ (hnm ▸ List.mem_cons_self _ _)) hw']
              at hpre
            exact Bool.noConfusion hpre
        rw [wordSubF, if_neg hcond, tokenize_cons_nonword c t hw]
        simp only [List.map_cons, renameTok, flatTok]
        rw [ih _ (some c) (by omega) (by simpa [optWord] using hw')]

theorem wordSub_tokens (name rep : Str) (hn : name ≠ [])
    (hwn : ∀ c ∈ name, isWordChar c = true) (s : Str) :
    wordSub name rep s = flatTok ((tokenize s).map (renameTok name rep)) :=
  wordSubF_tokens name rep hn hwn s.length s none (Nat.le_refl _) rfl

theorem startsOther_tokF (fuel : Nat) (s : Str) (hok : optWord s.head? = false) :
    startsOther (tokF fuel s) := by
  cases fuel with
  | zero => cases s <;> trivial
  | succ fuel =>
    cases s with
    | nil => trivial
    | cons c t =>
      have hw : isWordChar c = false := by simpa [optWord] using hok
      rw [tokF, if_neg (by simp [hw])]
      trivial

theorem tokF_wf : ∀ (fuel : Nat) (s : Str), s.length ≤ fuel → TokWF (tokF fuel s) := by
  intro fuel
  induction fuel with
  | zero =>
    intro s h1
    have hs : s = [] := List.length_eq_zero.mp (Nat.le_zero.mp h1)
    subst hs; exact TokWF.nil
  | succ fuel ih =>
    intro s h1
    cases s with
    | nil => exact TokWF.nil
    | cons c t =>
      simp only [List.length_cons] at h1
      by_cases hc : isWordChar c = true
      · rw [tokF, if_pos hc]
        refine TokWF.word _ _ ?_ (fun a ha => List.mem_takeWhile_imp ha)
          (startsOther_tokF fuel _ (optWord_dropWhile (c :: t))) ?_
        · rw [List.takeWhile_cons_of_pos hc]
          simp
        · refine ih _ ?_
          rw [List.dropWhile_cons_of_pos hc]
          exact Nat.le_trans (dropWhile_length_le _ t) (by omega)
      · rw [tokF, if_neg hc]
        exact TokWF.other c _ (by simpa using hc) (ih t (by omega))

theorem tokenize_wf (s : Str) : TokWF (tokenize s) := tokF_wf s.length s (Nat.le_refl _)

theorem flatTok_headOk (ts : List Tok) (hwf : TokWF ts) (hso : startsOther ts) :
    optWord (flatTok ts).head? = false := by
  cases hwf with
  | nil => rfl
  | other c ts' hc _ => simpa [flatTok, optWord] using hc
  | word r ts' _ _ _ _ => exact False.elim hso

theorem takeWhile_headOk (l : Str) (hok : optWord l.head? = false) :
    l.takeWhile isWordChar = [] := by
  cases l with
  | nil => rfl
  | cons c t =>
    have hw : isWordChar c = false := by simpa [optWord] using hok
    rw [List.takeWhile_cons_of_neg (by simp [hw])]

theorem dropWhile_headOk (l : Str) (hok : optWord l.head? = false) :
    l.dropWhile isWordChar = l := by
  cases l with
  | nil => rfl
  | cons c t =>
    have hw : isWordChar c = false := by simpa [optWord] using hok
    rw [List.dropWhile_cons_of_neg (by simp [hw])]

theorem dropWhile_append_all (p : Char → Bool) (A : Str) :
    ∀ B : Str, (∀ a ∈ A, p a = true) → (A ++ B).dropWhile p = B.dropWhile p := by
  induction A with
  | nil => intro B _; rfl
  | cons a A ih =>
    intro B h
    rw [List.cons_append, List.dropWhile_cons_of_pos (h a (List.mem_cons_self _ _)),
      ih B (fun x hx => h x (List.mem_cons_of_mem _ hx))]

theorem tokenize_flatTok (ts : List Tok) (hwf : TokWF ts) : tokenize (flatTok ts) = ts := by
  induction hwf with
  | nil => rfl
  | other c ts' hc _ ih =>
    rw [flatTok, tokenize_cons_nonword c _ (by simp [hc]), ih]
  | word r ts' hr hwa hso hwf' ih =>
    cases r with
    | nil => exact absurd rfl hr
    | cons r₀ r' =>
      have hw0 : isWordChar r₀ = true := hwa r₀ (List.mem_cons_self _ _)
      have hok : optWord (flatTok ts').head? = false := flatTok_headOk ts' hwf' hso
      have hTW : ((r₀ :: r') ++ flatTok ts').takeWhile isWordChar = r₀ :: r' := by
        rw [takeWhile_append_all _ _ _ hwa, takeWhile_headOk _ hok, List.append_nil]
      have hDW : ((r₀ :: r') ++ flatTok ts').dropWhile isWordChar = flatTok ts' := by
        rw [dropWhile_append_all _ _ _ hwa, dropWhile_headOk _ hok]
      rw [flatTok, List.cons_append, tokenize_cons_word r₀ (r' ++ flatTok ts') hw0]
      have h1 : (r₀ :: (r' ++ flatTok ts') : Str) = (r₀ :: r') ++ flatTok ts' := by
        rw [List.cons_append]
      rw [h1, hTW, hDW, ih]

theorem startsOther_map (name rep : Str) (ts : List Tok) (hso : startsOther ts) :
    startsOther (ts.map (renameTok name rep)) := by
  cases ts with
  | nil => trivial
  | cons t0 ts' =>
    cases t0 with
    | word r => exact False.elim hso
    | other c => simp only [List.map_cons, renameTok]; trivial

theorem renameTok_wf (name rep : Str) (hrn : rep ≠ [])
    (hwr : ∀ a ∈ rep, isWordChar a = true) (ts : List Tok) (hwf : TokWF ts) :
    TokWF (ts.map (renameTok name rep)) := by
  induction hwf with
  | nil => exact TokWF.nil
  | other c ts' hc _ ih =>
    simp only [List.map_cons, renameTok]
    exact TokWF.other c _ hc ih
  | word r ts' hr hwa hso _ ih =>
    simp only [List.map_cons, renameTok]
    refine TokWF.word _ _ ?_ ?_ (startsOther_map name rep ts' hso) ih
    · by_cases he : r = name
      · rw [if_pos he]; exact hrn
      · rw [if_neg he]; exact hr
    · intro a ha
      by_cases he : r = name
      · rw [if_pos he] at ha; exact hwr a ha
      · rw [if_neg he] at ha; exact hwa a ha

theorem renameTok_idem (name rep : Str) (hne : rep ≠ name) (tok : Tok) :
    renameTok name rep (renameTok name rep tok) = renameTok name rep tok := by
  cases tok with
  | other c => rfl
  | word r =>
    by_cases he : r = name
    · simp [renameTok, he, hne]
    · simp [renameTok, he]

theorem wordSub_idem (name rep : Str) (hn : name ≠ [])
    (hwn : ∀ c ∈ name, isWordChar c = true) (hrn : rep ≠ [])
    (hwr : ∀ a ∈ rep, isWordChar a = true) (hne : rep ≠ name) (s : Str) :
    wordSub name rep (wordSub name rep s) = wordSub name rep s := by
  rw [wordSub_tokens name rep hn hwn s,
    wordSub_tokens name rep hn hwn (flatTok ((tokenize s).map (renameTok name rep))),
    tokenize_flatTok _ (renameTok_wf name rep hrn hwr _ (tokenize_wf s))]
  have hmap : ∀ ts : List Tok,
      (ts.map (renameTok name rep)).map (renameTok name rep)
        = ts.map (renameTok name rep) := by
    intro ts
    induction ts with
    | nil => rfl
    | cons a l ih => simp only [List.map_cons, ih, renameTok_idem name rep hne a]
  rw [hmap]

/-- Claim C4: for every (ASCII) file content and every selected
unused-variable diagnostic whose extracted identifier is `count`, the
unused-variable pass replaces exactly the whole-word occurrences of `count`
(the maximal identifier runs equal to `count`) by `_count` and leaves every
other token — in particular any occurrence of `count` inside a larger
identifier such as `discounted` — unchanged. -/
theorem c4_variable_pass_whole_word (content fp w : Str)
    (_hascii : ∀ c ∈ content, c.toNat < 128)
    (hfp : containsB w fp = true)
    (hmv : containsB w "unused variable".data = true)
    (hex : extractVarName w = some "count".data) :
    fixVarsContent fp [w] content
      = flatTok ((tokenize content).map (renameTok "count".data "_count".data)) := by
  rw [fixVarsContent_single fp w content hfp hmv]
  simp only [varStep, hex]
  have hrep : ('_' :: "count".data : Str) = "_count".data := rfl
  rw [hrep]
  exact wordSub_tokens "count".data "_count".data (by decide) (by decide) content

theorem c4_witness :
    ((∀ c ∈ "let count = 1; count += 1; print(count); let discounted = 2;".data,
        c.toNat < 128) ∧
     containsB "warning: unused variable: `count` --> main.rs:2:9".data
       "main.rs".data = true ∧
     containsB "warning: unused variable: `count` --> main.rs:2:9".data
       "unused variable".data = true ∧
     extractVarName "warning: unused variable: `count` --> main.rs:2:9".data
       = some "count".data) ∧
    fixVarsContent "main.rs".data
        ["warning: unused variable: `count` --> main.rs:2:9".data]
        "let count = 1; count += 1; print(count); let discounted = 2;".data
      = flatTok ((tokenize
          "let count = 1; count += 1; print(count); let discounted = 2;".data).map
            (renameTok "count".data "_count".data)) :=
  ⟨by decide,
   c4_variable_pass_whole_word
     "let count = 1; count += 1; print(count); let discounted = 2;".data
     "main.rs".data "warning: unused variable: `count` --> main.rs:2:9".data
     (by decide) (by decide) (by decide) (by decide)⟩

/-- Claim C3: the unused-variable pass is idempotent.  Re-running the pass on
the already-patched (ASCII) file content with the same diagnostic naming
`count` leaves the content unchanged; in particular no occurrence is
double-prefixed to `__count`, because inside `_count` the identifier `count`
is no longer preceded by a word boundary. -/
theorem c3_variable_pass_idempotent (content fp w : Str)
    (_hascii : ∀ c ∈ content, c.toNat < 128)
    (hfp : containsB w fp = true)
    (hmv : containsB w "unused variable".data = true)
    (hex : extractVarName w = some "count".data) :
    fixVarsContent fp [w] (fixVarsContent fp [w] content)
      = fixVarsContent fp [w] content := by
  rw [fixVarsContent_single fp w content hfp hmv,
    fixVarsContent_single fp w _ hfp hmv]
  simp only [varStep, hex]
  have hrep : ('_' :: "count".data : Str) = "_count".data := rfl
  rw [hrep]
  exact wordSub_idem "count".data "_count".data (by decide) (by decide) (by decide)
    (by decide) (by decide) content

theorem c3_witness :
    ((∀ c ∈ "let count = 1; count + discounted;".data, c.toNat < 128) ∧
     containsB "warning: unused variable: `count` --> main.rs:1:5".data
       "main.rs".data = true ∧
     containsB "warning: unused variable: `count` --> main.rs:1:5".data
       "unused variable".data = true ∧
     extractVarName "warning: unused variable: `count` --> main.rs:1:5".data
       = some "count".data) ∧
    fixVarsContent "main.rs".data
        ["warning: unused variable: `count` --> main.rs:1:5".data]
        (fixVarsContent "main.rs".data
          ["warning: unused variable: `count` --> main.rs:1:5".data]
          "let count = 1; count + discounted;".data)
      = fixVarsContent "main.rs".data
          ["warning: unused variable: `count` --> main.rs:1:5".data]
          "let count = 1; count + discounted;".data :=
  ⟨by decide,
   c3_variable_pass_idempotent "let count = 1; count + discounted;".data
     "main.rs".data "warning: unused variable: `count` --> main.rs:1:5".data
     (by decide) (by decide) (by decide) (by decide)⟩
